import Mathlib

/-!
Shallow embedding of the `resource` Go package (src/resource.go), a minimal
REST resource router.  Go strings are modelled as lists of characters, the
Go `map[string]string` as an association list with overwrite-on-insert, and
a Go panic as a `none` result of an `Option`-valued function.
-/

/-- Go strings modelled as lists of characters. -/
abbrev GoStr := List Char

/-- `RouteParams` (src/resource.go:18): Go `map[string]string`, modelled as
an association list whose keys are kept unique by `mapInsert`. -/
abbrev ParamsMap := List (GoStr × GoStr)

/-- Go map assignment `m[k] = v`: overwrites an existing binding of `k`,
otherwise adds a fresh one. -/
def mapInsert : ParamsMap → GoStr → GoStr → ParamsMap
  | [], k, v => [(k, v)]
  | (k0, v0) :: rest, k, v =>
      if k0 = k then (k, v) :: rest else (k0, v0) :: mapInsert rest k v

/-- Go map lookup with ok flag, `v, ok := m[k]`, as an option. -/
def mapGet : ParamsMap → GoStr → Option GoStr
  | [], _ => none
  | (k0, v0) :: rest, k => if k0 = k then some v0 else mapGet rest k

/-- Go map lookup without the ok flag: `m[k]` yields the zero value `""`
when the key is absent. -/
def goGet (m : ParamsMap) (k : GoStr) : GoStr := (mapGet m k).getD []

/-- Go `strings.Split(s, "/")`: splits around every slash; the empty string
yields `[""]`. -/
def goSplit : GoStr → List GoStr
  | [] => [[]]
  | c :: cs =>
      if c = '/' then [] :: goSplit cs
      else
        match goSplit cs with
        | [] => [[c]]
        | s :: ss => (c :: s) :: ss

/-- The parameter-extraction loop of `NewContext` (src/resource.go:26-34):
walks the pattern segments in order while request segments remain
(the Go loop breaks when `len(urlParts) <= i`) and records
`params[p[1:]] = u` whenever the pattern segment `p` begins with `:`. -/
def matchParams : List GoStr → List GoStr → ParamsMap → ParamsMap
  | [], _, m => m
  | _ :: _, [], m => m
  | p :: ps, u :: us, m =>
      matchParams ps us (if p.head? = some ':' then mapInsert m (p.drop 1) u else m)

/-- `NewContext` (src/resource.go:21-37): the `RouteParams` value computed
from the raw request URL path and the pattern, both split on `/`. -/
def newContextParams (urlPath pattern : GoStr) : ParamsMap :=
  matchParams (goSplit pattern) (goSplit urlPath) []

/-- A request context is modelled by its only routing-relevant content: the
optional attached `RouteParams` value (`none` when `NewContext` never ran).
`NewContext` always attaches a (possibly empty) map. -/
def newContext (urlPath pattern : GoStr) : Option ParamsMap :=
  some (newContextParams urlPath pattern)

/-- `FromContext` (src/resource.go:40-43): the attached params and an ok
flag; when nothing is attached, the zero-value map and `false`. -/
def fromContext (ctx : Option ParamsMap) : ParamsMap × Bool :=
  (ctx.getD [], ctx.isSome)

/-- Go `strings.HasPrefix(s, pre)`. -/
def hasPre : GoStr → GoStr → Bool
  | _, [] => true
  | [], _ :: _ => false
  | c :: s, d :: t => c = d && hasPre s t

/-- Go `strings.TrimPrefix(s, pre)`. -/
def trimPre (s pre : GoStr) : GoStr :=
  if hasPre s pre then s.drop pre.length else s

/-- `trimPath` (src/resource.go:94-100): drops one trailing slash.  It reads
`p[len(p)-1]` unguarded, so the empty string panics (modelled `none`). -/
def trimPath (p : GoStr) : Option GoStr :=
  if p = [] then none
  else if p.getLast? = some '/' then some p.dropLast
  else some p

/-- The segment pass of Go `path.Clean` (standard library collaborator,
modelled from its documented semantics): drop empty and `.` segments, let
`..` pop the previous segment, keep leading `..` on a relative path, drop
`..` at the root.  `acc` holds the output segments in reverse. -/
def cleanLoop (rooted : Bool) : List GoStr → List GoStr → List GoStr
  | acc, [] => acc.reverse
  | acc, s :: rest =>
      if s = [] ∨ s = ['.'] then cleanLoop rooted acc rest
      else if s = ['.', '.'] then
        match acc with
        | [] => if rooted then cleanLoop rooted [] rest else cleanLoop rooted [s] rest
        | t :: acc0 =>
            if t = ['.', '.'] then cleanLoop rooted (s :: acc) rest
            else cleanLoop rooted acc0 rest
      else cleanLoop rooted (s :: acc) rest

/-- Joins segments with slashes, as `strings.Join(segs, "/")`. -/
def joinSegs : List GoStr → GoStr
  | [] => []
  | [s] => s
  | s :: t :: rest => s ++ '/' :: joinSegs (t :: rest)

/-- Go `path.Clean` (standard library collaborator, modelled from its
documented semantics by rewriting the slash-separated segments). -/
def pathClean (p : GoStr) : GoStr :=
  if p = [] then ['.']
  else
    let rooted := p.head? = some '/'
    let segs := cleanLoop rooted [] (goSplit p)
    if rooted then '/' :: joinSegs segs
    else if segs = [] then ['.']
    else joinSegs segs

/-- Go `path.Join(a, b)` for two elements (standard library collaborator):
empty elements are skipped and the joined string is cleaned; two empty
elements give the empty string without cleaning. -/
def pathJoin (a b : GoStr) : GoStr :=
  if a = [] && b = [] then []
  else if a = [] then pathClean b
  else if b = [] then pathClean a
  else pathClean (a ++ '/' :: b)

/-- The terminal action taken by `resourceHandler.ServeHTTP`: one of the
five `Resource` methods, or a terminal error response in which no
resource method is invoked. -/
inductive Act
  | Index
  | Create
  | Show
  | Update
  | Destroy
  | NotFound
  | MethodNotAllowed
  deriving DecidableEq

/-- The observable outcome of one dispatch: the action taken and the
optional `RouteParams` attached to the request passed on. -/
structure Dispatch where
  act : Act
  ctx : Option ParamsMap
  deriving DecidableEq

/-- `resourceHandler.ServeHTTP` (src/resource.go:121-152) for a handler
whose stored prefix is `pfx`: trims the request path (panicking on the
empty path), rejects paths without the plain string prefix, then
dispatches on the method string; `Show`/`Update`/`Destroy` attach a
context built by `NewContext` from the raw URL path and
`path.Join(prefix, ":id")`.  `none` models a panic. -/
def serveHTTP (pfx method urlPath : GoStr) : Option Dispatch :=
  match trimPath urlPath with
  | none => none
  | some p =>
      if !(hasPre p pfx) then some ⟨Act.NotFound, none⟩
      else if method = ( "GET".data) then
        if 0 < (trimPre p pfx).length then
          some ⟨Act.Show, newContext urlPath (pathJoin pfx ( ":id".data))⟩
        else some ⟨Act.Index, none⟩
      else if method = ( "POST".data) then some ⟨Act.Create, none⟩
      else if method = ( "PUT".data) then
        some ⟨Act.Update, newContext urlPath (pathJoin pfx ( ":id".data))⟩
      else if method = ( "DELETE".data) then
        some ⟨Act.Destroy, newContext urlPath (pathJoin pfx ( ":id".data))⟩
      else some ⟨Act.MethodNotAllowed, none⟩

/-- The prefix stored by `NewResourceHandler` (src/resource.go:103-111):
reads `prefix[len(prefix)-1]` unguarded (panics on `""`), drops one
trailing slash, then applies `trimPath` (which panics when the previous
step left `""`). -/
def newResourceHandlerPfx (pfx0 : GoStr) : Option GoStr :=
  if pfx0 = [] then none
  else if pfx0.getLast? = some '/' then trimPath pfx0.dropLast
  else trimPath pfx0

/-- `Router.HandleResource` (src/resource.go:176-181): trims the pattern,
builds one resource handler, and registers that same handler under both
`p` and `p ++ "/"`.  The result is the list of multiplexer entries
`(pattern, handler)`, the handler modelled as its stored prefix paired
with the resource value; `none` models a panic during registration. -/
def handleResource {α : Type} (pattern : GoStr) (res : α) :
    Option (List (GoStr × (GoStr × α))) :=
  match trimPath pattern with
  | none => none
  | some p =>
      match newResourceHandlerPfx p with
      | none => none
      | some hp => some [(p, (hp, res)), (p ++ [ '/' ], (hp, res))]

/-- Modelled from the spec, amended: the matcher records, for capture name
`k`, the request segment at the last index whose pattern segment is
`:k`, walking indices only while both sequences last; literal pattern
segments are never compared.  Used as the reference function for the
matcher characterisation. -/
def specLastLookup (pats urls : List GoStr) (k : GoStr) : Option GoStr :=
  ((pats.zip urls).reverse.find? (fun pu => pu.1 == ':' :: k)).map Prod.snd

/-- First-some choice on options, used to state fold characterisations. -/
def optOr {α : Type} : Option α → Option α → Option α
  | some a, _ => some a
  | none, b => b

/-! ### Helper lemmas about the embedded operations -/

theorem goSplit_ne_nil (l : GoStr) : goSplit l ≠ [] := by
  cases l with
  | nil => simp [goSplit]
  | cons c cs =>
      by_cases h : c = '/'
      · simp [goSplit, h]
      · cases hs : goSplit cs with
        | nil => simp [goSplit, h, hs]
        | cons s ss => simp [goSplit, h, hs]

theorem goSplit_append (a b : GoStr) :
    goSplit (a ++ '/' :: b) = goSplit a ++ goSplit b := by
  induction a with
  | nil => simp [goSplit]
  | cons c a ih =>
      by_cases h : c = '/'
      · simp [goSplit, h, ih]
      · cases hs : goSplit a with
        | nil => exact absurd hs (goSplit_ne_nil a)
        | cons s ss => simp [goSplit, h, ih, hs]

theorem goSplit_no_slash (a : GoStr) (h : '/' ∉ a) : goSplit a = [a] := by
  induction a with
  | nil => rfl
  | cons c a ih =>
      have hc : ¬ c = '/' := fun e => h (by simp [e])
      have ha : '/' ∉ a := fun m => h (List.mem_cons_of_mem _ m)
      simp [goSplit, hc, ih ha]

theorem mapGet_insert_self (m : ParamsMap) (k v : GoStr) :
    mapGet (mapInsert m k v) k = some v := by
  induction m with
  | nil => simp [mapInsert, mapGet]
  | cons kv rest ih =>
      obtain ⟨k0, v0⟩ := kv
      by_cases h : k0 = k
      · simp [mapInsert, mapGet, h]
      · simp [mapInsert, mapGet, h, ih]

theorem mapGet_insert_ne (m : ParamsMap) (k v k1 : GoStr) (h : k ≠ k1) :
    mapGet (mapInsert m k v) k1 = mapGet m k1 := by
  induction m with
  | nil => simp [mapInsert, mapGet, h]
  | cons kv rest ih =>
      obtain ⟨k0, v0⟩ := kv
      by_cases h0 : k0 = k
      · subst h0
        simp [mapInsert, mapGet, h]
      · simp [mapInsert, mapGet, h0, ih]

theorem matchParams_app (A : List GoStr) :
    ∀ (B : List GoStr), A.length = B.length →
      ∀ (A2 B2 : List GoStr) (m : ParamsMap),
        matchParams (A ++ A2) (B ++ B2) m = matchParams A2 B2 (matchParams A B m) := by
  induction A with
  | nil =>
      intro B hB A2 B2 m
      cases B with
      | nil => simp [matchParams]
      | cons b B => simp at hB
  | cons a A ih =>
      intro B hB A2 B2 m
      cases B with
      | nil => simp at hB
      | cons b B =>
          simp only [List.cons_append, matchParams]
          exact ih B (by simpa using hB) A2 B2 _

theorem matchParams_nil_right (P : List GoStr) (m : ParamsMap) :
    matchParams P [] m = m := by
  cases P <;> rfl

theorem matchParams_extra (A B A2 : List GoStr) (m : ParamsMap)
    (h : A.length = B.length) :
    matchParams (A ++ A2) B m = matchParams A B m := by
  have e := matchParams_app A B h A2 [] m
  rw [List.append_nil] at e
  rw [e, matchParams_nil_right]

theorem mapGet_matchParams_no_key (P : List GoStr) :
    ∀ (U : List GoStr) (m : ParamsMap) (k : GoStr), (':' :: k) ∉ P →
      mapGet (matchParams P U m) k = mapGet m k := by
  induction P with
  | nil => intro U m k _; rfl
  | cons p P ih =>
      intro U m k h
      have hP : (':' :: k) ∉ P := fun e => h (List.mem_cons_of_mem _ e)
      have hp : p ≠ ':' :: k := fun e => h (by simp [e])
      cases U with
      | nil => rfl
      | cons u U =>
          simp only [matchParams]
          rw [ih U _ k hP]
          by_cases hh : p.head? = some ':'
          · rw [if_pos hh]
            cases p with
            | nil => simp at hh
            | cons c t =>
                have hc : c = ':' := by simpa using hh
                subst hc
                have ht : t ≠ k := fun e => hp (by rw [e])
                exact mapGet_insert_ne m t u k ht
          · rw [if_neg hh]

theorem mapGet_matchParams_last (A B us : List GoStr) (m : ParamsMap)
    (k seg : GoStr) (h : A.length = B.length) :
    mapGet (matchParams (A ++ [':' :: k]) (B ++ seg :: us) m) k = some seg := by
  rw [matchParams_app A B h [':' :: k] (seg :: us) m]
  simp only [matchParams, List.head?, List.drop]
  rw [if_pos trivial]
  exact mapGet_insert_self _ k seg

theorem hasPre_app (a b : GoStr) : hasPre (a ++ b) a = true := by
  induction a with
  | nil => cases b <;> rfl
  | cons c a ih => simp [hasPre, ih]

theorem trimPre_app (a b : GoStr) : trimPre (a ++ b) a = b := by
  unfold trimPre
  rw [hasPre_app]
  simp [List.drop_left]

theorem trimPath_slash (P w : GoStr) (hw : w ≠ []) :
    trimPath (P ++ '/' :: w) =
      some (P ++ '/' :: (if w.getLast? = some '/' then w.dropLast else w)) := by
  have hne : ¬ (P ++ '/' :: w = []) := by simp
  have hl : (P ++ '/' :: w).getLast? = w.getLast? := by
    rw [show P ++ '/' :: w = (P ++ [ '/' ]) ++ w by simp]
    rw [List.getLast?_append]
    cases hwl : w.getLast? with
    | some c => rfl
    | none => exact absurd (List.getLast?_eq_none_iff.mp hwl) hw
  unfold trimPath
  rw [if_neg hne, hl]
  by_cases hc : w.getLast? = some '/'
  · rw [if_pos hc, if_pos hc]
    rw [show P ++ '/' :: w = (P ++ [ '/' ]) ++ w by simp]
    rw [List.dropLast_append_of_ne_nil _ hw]
    simp
  · rw [if_neg hc, if_neg hc]

theorem find?_app {α : Type} (l1 l2 : List α) (f : α → Bool) :
    (l1 ++ l2).find? f = optOr (l1.find? f) (l2.find? f) := by
  induction l1 with
  | nil => simp [optOr]
  | cons a l ih =>
      by_cases h : f a = true
      · rw [List.cons_append, List.find?_cons_of_pos _ h, List.find?_cons_of_pos _ h]
        rfl
      · rw [List.cons_append, List.find?_cons_of_neg _ (by simpa using h),
           List.find?_cons_of_neg _ (by simpa using h), ih]

theorem optOr_assoc {α : Type} (a b c : Option α) :
    optOr (optOr a b) c = optOr a (optOr b c) := by
  cases a <;> rfl

theorem specLastLookup_cons (p u : GoStr) (P U : List GoStr) (k : GoStr) :
    specLastLookup (p :: P) (u :: U) k =
      optOr (specLastLookup P U k) (if p = ':' :: k then some u else none) := by
  simp only [specLastLookup, List.zip_cons_cons, List.reverse_cons]
  rw [find?_app]
  cases hf : (List.zip P U).reverse.find? (fun pu => pu.1 == ':' :: k) with
  | some pu => simp [optOr, hf]
  | none =>
      simp only [hf, optOr]
      by_cases h : p = ':' :: k
      · simp [List.find?, h]
      · have hb : (p == ':' :: k) = false := beq_eq_false_iff_ne.mpr h
        simp [List.find?, hb, h]

theorem mapGet_matchParams_spec (P : List GoStr) :
    ∀ (U : List GoStr) (m : ParamsMap) (k : GoStr),
      mapGet (matchParams P U m) k = optOr (specLastLookup P U k) (mapGet m k) := by
  induction P with
  | nil => intro U m k; simp [matchParams, specLastLookup, optOr]
  | cons p P ih =>
      intro U m k
      cases U with
      | nil => simp [matchParams, specLastLookup, optOr]
      | cons u U =>
          simp only [matchParams]
          rw [ih, specLastLookup_cons, optOr_assoc]
          have hstep :
              mapGet (if p.head? = some ':' then mapInsert m (p.drop 1) u else m) k =
                optOr (if p = ':' :: k then some u else none) (mapGet m k) := by
            by_cases he : p = ':' :: k
            · subst he
              rw [if_pos rfl]
              rw [if_pos (show (':' :: k).head? = some ':' from rfl)]
              simpa [optOr, List.drop] using mapGet_insert_self m k u
            · rw [if_neg he]
              by_cases hh : p.head? = some ':'
              · rw [if_pos hh]
                cases p with
                | nil => simp at hh
                | cons c t =>
                    have hc : c = ':' := by simpa using hh
                    subst hc
                    have ht : t ≠ k := fun e => he (by rw [e])
                    simpa [optOr] using mapGet_insert_ne m t u k ht
              · rw [if_neg hh]
                rfl
          rw [hstep]

/-- Dispatch equation for `ServeHTTP` once the trimmed path is known and the
prefix check passes: the remaining behaviour is the method switch. -/
theorem serveHTTP_eq (pfx method path p : GoStr) (h1 : trimPath path = some p)
    (h2 : hasPre p pfx = true) :
    serveHTTP pfx method path =
      (if method = ( "GET".data) then
        (if 0 < (trimPre p pfx).length then
           some ⟨Act.Show, newContext path (pathJoin pfx ( ":id".data))⟩
         else some ⟨Act.Index, none⟩)
       else if method = ( "POST".data) then some ⟨Act.Create, none⟩
       else if method = ( "PUT".data) then
         some ⟨Act.Update, newContext path (pathJoin pfx ( ":id".data))⟩
       else if method = ( "DELETE".data) then
         some ⟨Act.Destroy, newContext path (pathJoin pfx ( ":id".data))⟩
       else some ⟨Act.MethodNotAllowed, none⟩) := by
  unfold serveHTTP
  rw [h1]
  simp [h2]

/-- The pattern `P ++ "/:id"` splits into the segments of `P` followed by
the single capture segment `:id`. -/
theorem goSplit_slash_id (P : GoStr) :
    goSplit (P ++ ( "/:id".data)) = goSplit P ++ [':' :: ( "id".data)] := by
  rw [show ( "/:id".data : GoStr) = '/' :: ( ":id".data) from rfl]
  rw [goSplit_append]
  rw [goSplit_no_slash ( ":id".data) (by decide)]

/-- `NewContext` against `P ++ "/:id"` on a request path `P ++ "/" ++ seg ++
rest` records `id ↦ seg` whenever `seg` is a single nonempty segment and
`rest` is empty or a further sub-path. -/
theorem newContextParams_id (P seg rest : GoStr)
    (hslash : '/' ∉ seg)
    (hrest : rest = [] ∨ ∃ r, rest = '/' :: r) :
    mapGet (newContextParams (P ++ '/' :: (seg ++ rest)) (P ++ ( "/:id".data)))
        ( "id".data) = some seg := by
  have hurl : ∃ us, goSplit (P ++ '/' :: (seg ++ rest)) = goSplit P ++ seg :: us := by
    rw [goSplit_append]
    rcases hrest with h | ⟨r, h⟩
    · subst h
      rw [List.append_nil, goSplit_no_slash seg hslash]
      exact ⟨[], rfl⟩
    · subst h
      rw [goSplit_append, goSplit_no_slash seg hslash]
      exact ⟨goSplit r, rfl⟩
  obtain ⟨us, hu⟩ := hurl
  unfold newContextParams
  rw [goSplit_slash_id, hu]
  exact mapGet_matchParams_last (goSplit P) (goSplit P) us [] ( "id".data) seg rfl

theorem hasPre_refl (a : GoStr) : hasPre a a = true := by
  have h := hasPre_app a []
  rwa [List.append_nil] at h

theorem trimPre_refl (a : GoStr) : trimPre a a = [] := by
  have h := trimPre_app a []
  rwa [List.append_nil] at h

theorem trimPath_of_no_trailing (P : GoStr) (h1 : P ≠ []) (h2 : P.getLast? ≠ some '/') :
    trimPath P = some P := by
  unfold trimPath
  rw [if_neg h1, if_neg h2]

theorem trimPath_concat_slash (P : GoStr) : trimPath (P ++ [ '/' ]) = some P := by
  unfold trimPath
  rw [if_neg (by simp), if_pos (by simp), List.dropLast_concat]

/-! ### Claim theorems -/

/-- C1, counterexample: for the stored prefix `/a//b` (whose join with
`:id` is cleaned by `path.Join` to `/a/b/:id`), a GET of `/a//b/7`
dispatches to Show but the attached params map `id` to `b`, not to `7`,
the first path segment after the prefix — refuting the claim as stated
for arbitrary registered prefixes. -/
theorem c1_counterexample :
    serveHTTP ( "/a//b".data) ( "GET".data) ( "/a//b/7".data) =
      some ⟨Act.Show, some [(( "id".data), ( "b".data))]⟩ ∧
    mapGet [(( "id".data), ( "b".data))] ( "id".data) ≠ some ( "7".data) := by
  decide

/-- C1 (amended): for every stored prefix `P` that is left intact when
`path.Join`ed with `:id`, and every request path `P ++ "/" ++ seg ++ rest`
with `seg` a nonempty slash-free first segment and `rest` empty or a
`/`-led tail, GET dispatches to Show, PUT to Update and DELETE to
Destroy, each with attached `RouteParams` mapping `id` to exactly `seg`. -/
theorem c1_theorem (P seg rest : GoStr)
    (hjoin : pathJoin P ( ":id".data) = P ++ ( "/:id".data))
    (hseg : seg ≠ []) (hslash : '/' ∉ seg)
    (hrest : rest = [] ∨ ∃ r, rest = '/' :: r) :
    (∃ m, serveHTTP P ( "GET".data) (P ++ '/' :: (seg ++ rest)) =
        some ⟨Act.Show, some m⟩ ∧ mapGet m ( "id".data) = some seg) ∧
    (∃ m, serveHTTP P ( "PUT".data) (P ++ '/' :: (seg ++ rest)) =
        some ⟨Act.Update, some m⟩ ∧ mapGet m ( "id".data) = some seg) ∧
    (∃ m, serveHTTP P ( "DELETE".data) (P ++ '/' :: (seg ++ rest)) =
        some ⟨Act.Destroy, some m⟩ ∧ mapGet m ( "id".data) = some seg) := by
  have hw : seg ++ rest ≠ [] := by
    intro h
    exact hseg (List.append_eq_nil.mp h).1
  obtain ⟨t, h1⟩ : ∃ t, trimPath (P ++ '/' :: (seg ++ rest)) = some (P ++ '/' :: t) :=
    ⟨_, trimPath_slash P (seg ++ rest) hw⟩
  have h2 : hasPre (P ++ '/' :: t) P = true := hasPre_app P ('/' :: t)
  have hlen : 0 < (trimPre (P ++ '/' :: t) P).length := by
    rw [trimPre_app P ('/' :: t)]
    simp
  have hparams : mapGet (newContextParams (P ++ '/' :: (seg ++ rest))
      (pathJoin P ( ":id".data))) ( "id".data) = some seg := by
    rw [hjoin]
    exact newContextParams_id P seg rest hslash hrest
  refine ⟨⟨_, ?_, hparams⟩, ⟨_, ?_, hparams⟩, ⟨_, ?_, hparams⟩⟩
  · rw [serveHTTP_eq P ( "GET".data) _ _ h1 h2, if_pos rfl, if_pos hlen]
    rfl
  · rw [serveHTTP_eq P ( "PUT".data) _ _ h1 h2, if_neg (by decide),
       if_neg (by decide), if_pos rfl]
    rfl
  · rw [serveHTTP_eq P ( "DELETE".data) _ _ h1 h2, if_neg (by decide),
       if_neg (by decide), if_neg (by decide), if_pos rfl]
    rfl

/-- C1 witness: prefix `/posts`, path `/posts/1`. -/
theorem c1_witness :
    (∃ m, serveHTTP ( "/posts".data) ( "GET".data)
        (( "/posts".data) ++ '/' :: (( "1".data) ++ [])) =
        some ⟨Act.Show, some m⟩ ∧ mapGet m ( "id".data) = some ( "1".data)) ∧
    (∃ m, serveHTTP ( "/posts".data) ( "PUT".data)
        (( "/posts".data) ++ '/' :: (( "1".data) ++ [])) =
        some ⟨Act.Update, some m⟩ ∧ mapGet m ( "id".data) = some ( "1".data)) ∧
    (∃ m, serveHTTP ( "/posts".data) ( "DELETE".data)
        (( "/posts".data) ++ '/' :: (( "1".data) ++ [])) =
        some ⟨Act.Destroy, some m⟩ ∧ mapGet m ( "id".data) = some ( "1".data)) :=
  c1_theorem ( "/posts".data) ( "1".data) [] (by decide) (by decide) (by decide)
    (Or.inl rfl)

/-- C2, counterexample: with pattern `:a/:a` and request path `x/y` the
produced mapping binds `a` to `y` only; it does not contain the entry
`a ↦ x` demanded for capture index 0, refuting the claim that the mapping
contains exactly the entry for every capture index. -/
theorem c2_counterexample :
    newContextParams ( "x/y".data) ( ":a/:a".data) = [(( "a".data), ( "y".data))] ∧
    mapGet [(( "a".data), ( "y".data))] ( "a".data) ≠ some ( "x".data) := by
  decide

/-- C2 (amended): the matcher is total — it always yields a mapping, never
an error — and for every pattern, request path and capture name, the
lookup of that name equals the request segment at the last index (walking
indices only while both split sequences last) whose pattern segment is
`:name`; literal pattern segments are never compared, so an unmatched
pattern merely yields an empty or partial mapping. -/
theorem c2_theorem (pattern urlPath k : GoStr) :
    mapGet (newContextParams urlPath pattern) k =
      specLastLookup (goSplit pattern) (goSplit urlPath) k := by
  unfold newContextParams
  rw [mapGet_matchParams_spec]
  cases h : specLastLookup (goSplit pattern) (goSplit urlPath) k <;>
    simp [optOr, mapGet]

/-- C3, counterexample: the standalone registration `NewResourceHandler`
normalises the argument `a///` to the stored prefix `a/`, and then a GET
of `a/` — the registered prefix itself — answers NotFound instead of
dispatching to Index, refuting the claim for arbitrary registered
prefixes. -/
theorem c3_counterexample :
    newResourceHandlerPfx ( "a///".data) = some ( "a/".data) ∧
    serveHTTP ( "a/".data) ( "GET".data) ( "a/".data) =
      some ⟨Act.NotFound, none⟩ := by
  decide

/-- C3 (amended): for every stored prefix `P` that is nonempty and free of
a trailing slash, a GET of `P` or of `P ++ "/"` dispatches to Index with
no attached route parameters, so `FromContext` reports found = false. -/
theorem c3_theorem (P : GoStr) (h1 : P ≠ []) (h2 : P.getLast? ≠ some '/') :
    (serveHTTP P ( "GET".data) P = some ⟨Act.Index, none⟩ ∧
     fromContext none = ([], false)) ∧
    serveHTTP P ( "GET".data) (P ++ [ '/' ]) = some ⟨Act.Index, none⟩ := by
  have htp : trimPath P = some P := trimPath_of_no_trailing P h1 h2
  have htp2 : trimPath (P ++ [ '/' ]) = some P := trimPath_concat_slash P
  have hpre : hasPre P P = true := hasPre_refl P
  have hlen : ¬ 0 < (trimPre P P).length := by
    rw [trimPre_refl]
    simp
  refine ⟨⟨?_, rfl⟩, ?_⟩
  · rw [serveHTTP_eq P ( "GET".data) P P htp hpre, if_pos rfl, if_neg hlen]
  · rw [serveHTTP_eq P ( "GET".data) (P ++ [ '/' ]) P htp2 hpre, if_pos rfl,
       if_neg hlen]

/-- C3 witness: prefix `/posts`. -/
theorem c3_witness :
    (serveHTTP ( "/posts".data) ( "GET".data) ( "/posts".data) =
        some ⟨Act.Index, none⟩ ∧ fromContext none = ([], false)) ∧
    serveHTTP ( "/posts".data) ( "GET".data) (( "/posts".data) ++ [ '/' ]) =
      some ⟨Act.Index, none⟩ :=
  c3_theorem ( "/posts".data) (by decide) (by decide)

/-- C4, counterexample: for the stored prefix `/a//b` (cleaned by
`path.Join` to the pattern `/a/b/:id`), a PUT of exactly the prefix
attaches params with `id ↦ b`, not the empty string, refuting the claim
for arbitrary registered prefixes. -/
theorem c4_counterexample :
    serveHTTP ( "/a//b".data) ( "PUT".data) ( "/a//b".data) =
      some ⟨Act.Update, some [(( "id".data), ( "b".data))]⟩ ∧
    goGet [(( "id".data), ( "b".data))] ( "id".data) ≠ [] := by
  decide

/-- C4 (amended): for every stored prefix `P` that is nonempty, has no
trailing slash, is left intact when `path.Join`ed with `:id`, and has no
segment equal to `:id` itself, a PUT or DELETE of `P` or of `P ++ "/"`
dispatches to Update respectively Destroy with a context built against
`prefix/:id`, and the `id` value read from the attached params is the
empty string (for the bare prefix the key is absent and the read yields
the zero value; for the trailing-slash form the key maps to `""`). -/
theorem c4_theorem (P : GoStr) (h1 : P ≠ []) (h2 : P.getLast? ≠ some '/')
    (hjoin : pathJoin P ( ":id".data) = P ++ ( "/:id".data))
    (hid : (':' :: ( "id".data)) ∉ goSplit P) :
    (∃ m, serveHTTP P ( "PUT".data) P = some ⟨Act.Update, some m⟩ ∧
        goGet m ( "id".data) = []) ∧
    (∃ m, serveHTTP P ( "DELETE".data) P = some ⟨Act.Destroy, some m⟩ ∧
        goGet m ( "id".data) = []) ∧
    (∃ m, serveHTTP P ( "PUT".data) (P ++ [ '/' ]) = some ⟨Act.Update, some m⟩ ∧
        goGet m ( "id".data) = []) ∧
    (∃ m, serveHTTP P ( "DELETE".data) (P ++ [ '/' ]) =
        some ⟨Act.Destroy, some m⟩ ∧ goGet m ( "id".data) = []) := by
  have htp : trimPath P = some P := trimPath_of_no_trailing P h1 h2
  have htp2 : trimPath (P ++ [ '/' ]) = some P := trimPath_concat_slash P
  have hpre : hasPre P P = true := hasPre_refl P
  have hm1 : goGet (newContextParams P (pathJoin P ( ":id".data))) ( "id".data) = [] := by
    rw [hjoin]
    unfold newContextParams goGet
    rw [goSplit_slash_id]
    rw [matchParams_extra (goSplit P) (goSplit P) [':' :: ( "id".data)] [] rfl]
    rw [mapGet_matchParams_no_key (goSplit P) (goSplit P) [] ( "id".data) hid]
    rfl
  have hm2 : goGet (newContextParams (P ++ [ '/' ]) (pathJoin P ( ":id".data)))
      ( "id".data) = [] := by
    rw [hjoin]
    unfold newContextParams goGet
    rw [goSplit_slash_id]
    rw [show (P ++ [ '/' ] : GoStr) = P ++ '/' :: [] from rfl, goSplit_append]
    rw [show goSplit ([] : GoStr) = [] :: [] from rfl]
    rw [mapGet_matchParams_last (goSplit P) (goSplit P) [] [] ( "id".data) [] rfl]
    rfl
  refine ⟨⟨_, ?_, hm1⟩, ⟨_, ?_, hm1⟩, ⟨_, ?_, hm2⟩, ⟨_, ?_, hm2⟩⟩
  · rw [serveHTTP_eq P ( "PUT".data) P P htp hpre, if_neg (by decide),
       if_neg (by decide), if_pos rfl]
    rfl
  · rw [serveHTTP_eq P ( "DELETE".data) P P htp hpre, if_neg (by decide),
       if_neg (by decide), if_neg (by decide), if_pos rfl]
    rfl
  · rw [serveHTTP_eq P ( "PUT".data) (P ++ [ '/' ]) P htp2 hpre,
       if_neg (by decide), if_neg (by decide), if_pos rfl]
    rfl
  · rw [serveHTTP_eq P ( "DELETE".data) (P ++ [ '/' ]) P htp2 hpre,
       if_neg (by decide), if_neg (by decide), if_neg (by decide), if_pos rfl]
    rfl

/-- C4 witness: prefix `/posts`. -/
theorem c4_witness :
    (∃ m, serveHTTP ( "/posts".data) ( "PUT".data) ( "/posts".data) =
        some ⟨Act.Update, some m⟩ ∧ goGet m ( "id".data) = []) ∧
    (∃ m, serveHTTP ( "/posts".data) ( "DELETE".data) ( "/posts".data) =
        some ⟨Act.Destroy, some m⟩ ∧ goGet m ( "id".data) = []) ∧
    (∃ m, serveHTTP ( "/posts".data) ( "PUT".data) (( "/posts".data) ++ [ '/' ]) =
        some ⟨Act.Update, some m⟩ ∧ goGet m ( "id".data) = []) ∧
    (∃ m, serveHTTP ( "/posts".data) ( "DELETE".data) (( "/posts".data) ++ [ '/' ]) =
        some ⟨Act.Destroy, some m⟩ ∧ goGet m ( "id".data) = []) :=
  c4_theorem ( "/posts".data) (by decide) (by decide) (by decide) (by decide)

/-- C5: a request whose trimmed path does not carry the stored prefix as a
plain string prefix is answered NotFound for every method, with no
resource method invoked and no context attached. -/
theorem c5_theorem (pfx method path p : GoStr) (h1 : trimPath path = some p)
    (h2 : hasPre p pfx = false) :
    serveHTTP pfx method path = some ⟨Act.NotFound, none⟩ := by
  unfold serveHTTP
  rw [h1]
  simp [h2]

/-- C5 witness: prefix `/posts`, path `/other`, method GET. -/
theorem c5_witness :
    serveHTTP ( "/posts".data) ( "GET".data) ( "/other".data) =
      some ⟨Act.NotFound, none⟩ :=
  c5_theorem ( "/posts".data) ( "GET".data) ( "/other".data) ( "/other".data)
    (by decide) (by decide)

/-- C6: a request that passes the prefix check but whose method is none of
GET, POST, PUT, DELETE is answered MethodNotAllowed, with no resource
method invoked. -/
theorem c6_theorem (pfx method path p : GoStr) (h1 : trimPath path = some p)
    (h2 : hasPre p pfx = true)
    (hg : method ≠ ( "GET".data)) (hpo : method ≠ ( "POST".data))
    (hpu : method ≠ ( "PUT".data)) (hd : method ≠ ( "DELETE".data)) :
    serveHTTP pfx method path = some ⟨Act.MethodNotAllowed, none⟩ := by
  rw [serveHTTP_eq pfx method path p h1 h2, if_neg hg, if_neg hpo,
     if_neg hpu, if_neg hd]

/-- C6 witness: prefix `/posts`, path `/posts/1`, method PATCH. -/
theorem c6_witness :
    serveHTTP ( "/posts".data) ( "PATCH".data) ( "/posts/1".data) =
      some ⟨Act.MethodNotAllowed, none⟩ :=
  c6_theorem ( "/posts".data) ( "PATCH".data) ( "/posts/1".data) ( "/posts/1".data)
    (by decide) (by decide) (by decide) (by decide) (by decide) (by decide)

/-- C7, counterexample: registering the pattern `/` does not create two
multiplexer entries — `trimPath` normalises it to the empty string and
`NewResourceHandler` then panics on its unguarded last-byte read, so
registration aborts with no entries, refuting the claim for arbitrary
patterns. -/
theorem c7_counterexample : handleResource ( "/".data) (0 : Nat) = none := by
  decide

/-- C7 (amended): for every pattern whose registration chain completes
(the trailing-slash trim succeeds and `NewResourceHandler` does not
panic — every pattern except the empty string, `/` and `//`), exactly two
multiplexer entries are created, the trailing-slash-normalised pattern
`p` and its subtree `p ++ "/"`, and both are bound to the very same
handler value, so parameter extraction behaves identically through both
entry points. -/
theorem c7_theorem {α : Type} (pattern p hp : GoStr) (res : α)
    (h1 : trimPath pattern = some p) (h2 : newResourceHandlerPfx p = some hp) :
    handleResource pattern res =
      some [(p, (hp, res)), (p ++ [ '/' ], (hp, res))] := by
  unfold handleResource
  simp only [h1, h2]

/-- C7 witness: pattern `/posts`. -/
theorem c7_witness :
    handleResource ( "/posts".data) (0 : Nat) =
      some [(( "/posts".data), (( "/posts".data), 0)),
            (( "/posts".data) ++ [ '/' ], (( "/posts".data), 0))] :=
  c7_theorem ( "/posts".data) ( "/posts".data) ( "/posts".data) 0
    (by decide) (by decide)

/-- C8: a POST whose trimmed path carries the stored prefix dispatches to
Create exactly once with no attached route parameters, so `FromContext`
inside Create reports found = false. -/
theorem c8_theorem (pfx path p : GoStr) (h1 : trimPath path = some p)
    (h2 : hasPre p pfx = true) :
    serveHTTP pfx ( "POST".data) path = some ⟨Act.Create, none⟩ ∧
    fromContext none = ([], false) := by
  refine ⟨?_, rfl⟩
  rw [serveHTTP_eq pfx ( "POST".data) path p h1 h2, if_neg (by decide), if_pos rfl]

/-- C8 witness: prefix `/posts`, path `/posts`. -/
theorem c8_witness :
    serveHTTP ( "/posts".data) ( "POST".data) ( "/posts".data) =
      some ⟨Act.Create, none⟩ ∧ fromContext none = ([], false) :=
  c8_theorem ( "/posts".data) ( "/posts".data) ( "/posts".data)
    (by decide) (by decide)

/-- C9: witnessing path `/postsX` against prefix `/posts`: the raw-string
prefix check accepts it (`hasPre` is true though no `/` separator
follows the prefix), a GET dispatches to Show, and the attached
`RouteParams` value is the empty map, which contains no `id` entry. -/
theorem c9_theorem :
    hasPre ( "/postsX".data) ( "/posts".data) = true ∧
    serveHTTP ( "/posts".data) ( "GET".data) ( "/postsX".data) =
      some ⟨Act.Show, some []⟩ ∧
    mapGet [] ( "id".data) = none := by
  decide

/-- C10: `trimPath` of the empty string is undefined (panics on the
unguarded `p[len(p)-1]`), hence so are `NewResourceHandler` with an empty
prefix and `ServeHTTP` on an empty URL path; conversely every nonempty
path makes `trimPath` defined, so nonemptiness is exactly the implicit
precondition for the out-of-range access to be unreachable. -/
theorem c10_theorem :
    trimPath [] = none ∧
    newResourceHandlerPfx [] = none ∧
    (∀ pfx method : GoStr, serveHTTP pfx method [] = none) ∧
    (∀ p : GoStr, p ≠ [] → (trimPath p).isSome = true) := by
  refine ⟨rfl, rfl, fun pfx method => rfl, fun p h => ?_⟩
  unfold trimPath
  rw [if_neg h]
  by_cases hc : p.getLast? = some '/'
  · rw [if_pos hc]
    rfl
  · rw [if_neg hc]
    rfl

/-- C10 witness: the one-character path `a` is accepted by `trimPath`. -/
theorem c10_witness : (trimPath [ 'a' ]).isSome = true :=
  c10_theorem.2.2.2 [ 'a' ] (by decide)
